import Mathlib

/-
Verification of the redisson distributed-lock and rate-limiter cores.

The Lua scripts executed by the Go client (redissonLock.go,
redissonBaseLock.go and the rate-limiter source file) are shallowly
embedded as pure Lean functions over explicit store states.  A Redis
hash is an association list from field names to integers; a sorted set
of permits is a list of entries (member identity = packed
(nonce, permits) pair, plus a score); `nil` results of scripts are
`Option.none`; script `assert`/runtime failures are `Except.error`
paired with the state reached at the point of failure (Redis applies no
rollback for scripts).
-/

set_option autoImplicit false

/-! ## Reentrant lock: store model (redissonLock.go scripts) -/

/-- State of the lock key `KEYS[1]`: the hash `field → count` plus its
pending TTL in milliseconds (`none` = no expiry set). The key exists
iff the hash is nonempty. -/
structure LockState where
  hash : List (String × Int)
  ttl : Option Int
deriving DecidableEq, Repr

/-- `redis.call('hget', key, f)` on the embedded hash. -/
def hget : List (String × Int) → String → Option Int
  | [], _ => none
  | (g, v) :: t, f => if g = f then some v else hget t f

/-- `redis.call('hexists', key, f) == 1`. -/
def hexists (h : List (String × Int)) (f : String) : Bool :=
  (hget h f).isSome

/-- `redis.call('hincrby', key, f, d)`: returns the updated hash and the
new value of field `f` (the field is created at `d` when absent; the
key itself is created when missing). -/
def hincrby : List (String × Int) → String → Int → List (String × Int) × Int
  | [], f, d => ([(f, d)], d)
  | (g, v) :: t, f, d =>
    if g = f then ((g, v + d) :: t, v + d)
    else
      let r := hincrby t f d
      ((g, v) :: r.1, r.2)

/-- `redis.call('pexpire', key, t)`: sets the TTL only when the key exists. -/
def pexpire (s : LockState) (t : Int) : LockState :=
  if s.hash = [] then s else { s with ttl := some t }

/-- `redis.call('pttl', key)`: `-2` when the key is missing, `-1` when it
has no expiry, else the remaining TTL. -/
def pttl (s : LockState) : Int :=
  if s.hash = [] then -2
  else
    match s.ttl with
    | none => -1
    | some t => t

/-- The `unlockMessage` constant published on the lock channel
(redissonBaseLock.go). -/
def unlockMessage : Int := 0

/-- The tryLock script of `tryLockInner` (redissonLock.go):
`exists == 0` → create the owner field at 1 and set the lease TTL,
return nil; `hexists owner` → increment and refresh TTL, return nil;
otherwise return `pttl`.  `none` models the redis nil reply. -/
def tryLockInner (lease : Int) (owner : String) (s : LockState) :
    Option Int × LockState :=
  if s.hash = [] then
    (none, pexpire ⟨(hincrby s.hash owner 1).1, s.ttl⟩ lease)
  else if hexists s.hash owner then
    (none, pexpire ⟨(hincrby s.hash owner 1).1, s.ttl⟩ lease)
  else
    (some (pttl s), s)

/-- The unlock script of `unlockInner` (redissonLock.go). Returns the
script result, the new lock state, and the list of messages published
on the lock channel (`ARGV[1]` is `msg`, `ARGV[2]` is the lease). -/
def unlockInner (msg lease : Int) (owner : String) (s : LockState) :
    Option Int × LockState × List Int :=
  if hexists s.hash owner then
    let r := hincrby s.hash owner (-1)
    if 0 < r.2 then (some 0, pexpire ⟨r.1, s.ttl⟩ lease, [])
    else (some 1, ⟨[], none⟩, [msg])
  else (none, s, [])

/-- The renew script of `renewExpirationInner` (redissonLock.go). -/
def renewExpirationInner (lease : Int) (owner : String) (s : LockState) :
    Int × LockState :=
  if hexists s.hash owner then (1, pexpire s lease) else (0, s)

/-- Result of `UnlockContext` (redissonBaseLock.go) when the script call
itself incurred no transport error. -/
inductive UnlockResult where
  | ok
  | notLockedByCurrentOwner
deriving DecidableEq, Repr

/-- `UnlockContext` (redissonBaseLock.go): runs the unlock script; a nil
(`none`) script status becomes the not-locked-by-current-owner failure,
any integer status becomes success (`nil` error). -/
def unlockContext (lease : Int) (owner : String) (s : LockState) :
    UnlockResult × LockState :=
  let r := unlockInner unlockMessage lease owner s
  match r.1 with
  | none => (UnlockResult.notLockedByCurrentOwner, r.2.1)
  | some _ => (UnlockResult.ok, r.2.1)

/-- An atomic script execution against the lock key, tagged with the
owner string `ARGV` and the lease used by the Go wrappers. -/
inductive LockOp where
  | tryLock (lease : Int) (owner : String)
  | unlock (lease : Int) (owner : String)
  | renew (lease : Int) (owner : String)
deriving DecidableEq, Repr

/-- State transition of one script execution. -/
def lockStep (op : LockOp) (s : LockState) : LockState :=
  match op with
  | .tryLock lease owner => (tryLockInner lease owner s).2
  | .unlock lease owner => (unlockInner unlockMessage lease owner s).2.1
  | .renew lease owner => (renewExpirationInner lease owner s).2

/-- The absent lock key. -/
def lockInit : LockState := ⟨[], none⟩

/-- State after a finite sequence of script executions from the absent key. -/
def runLock (ops : List LockOp) : LockState :=
  ops.foldl (fun s op => lockStep op s) lockInit

/-- Lock invariant: at most one owner field, and every present
reentrancy counter is strictly positive. -/
def lockInv (s : LockState) : Prop :=
  s.hash.length ≤ 1 ∧ ∀ p ∈ s.hash, 0 < p.2

/-! ## Rate limiter: store model (tryAcquireScript, setRateScript,
trySetRateScript, availablePermitsScript and their Go wrappers) -/

/-- One member of the permits sorted set.  The member string is the
packed pair `struct.pack('Bc0I', len, nonce, permits)`, so member
identity is the `(nonce, permits)` pair; `score` is the acquisition
timestamp in milliseconds. -/
structure PEntry where
  nonce : Nat
  permits : Int
  score : Int
deriving DecidableEq, Repr

/-- The config hash `KEYS[1]` with its three independently settable
fields `rate`, `interval` and `type` (`rtype` here). -/
structure ConfigHash where
  rate : Option Int
  interval : Option Int
  rtype : Option Int
deriving DecidableEq, Repr

/-- The full store footprint of one rate limiter: config hash, the
cluster-wide (`ov`) and per-client (`cl`) value keys and permits sorted
sets, and the TTLs the scripts may propagate. -/
structure RLState where
  config : ConfigHash
  cfgTtl : Option Int
  ovValue : Option Int
  clValue : Option Int
  ovPermits : List PEntry
  clPermits : List PEntry
  ovValueTtl : Option Int
  clValueTtl : Option Int
  ovPermitsTtl : Option Int
  clPermitsTtl : Option Int
deriving DecidableEq, Repr

/-- The store before any rate-limiter key exists. -/
def rlInit : RLState :=
  ⟨⟨none, none, none⟩, none, none, none, [], [], none, none, none, none⟩

/-- Sum of the permit counts embedded in the members. -/
def permitSum (ps : List PEntry) : Int :=
  (ps.map PEntry.permits).sum

/-- Membership in `zrangebyscore permits 0 (now - interval)`: the
members eligible for release. -/
def expiredB (now interval : Int) (e : PEntry) : Bool :=
  decide (0 ≤ e.score) && decide (e.score ≤ now - interval)

/-- Members surviving `zremrangebyscore permits 0 (now - interval)`. -/
def sweepRemaining (now interval : Int) (ps : List PEntry) : List PEntry :=
  ps.filter (fun e => ! expiredB now interval e)

/-- `released`: the summed permit counts of the expired members. -/
def sweepReleased (now interval : Int) (ps : List PEntry) : Int :=
  permitSum (ps.filter (expiredB now interval))

/-- The permits set after the sweep step of the acquire script (the
removal only happens when `released > 0`). -/
def postSweep (now interval : Int) (ps : List PEntry) : List PEntry :=
  if 0 < sweepReleased now interval ps then sweepRemaining now interval ps
  else ps

/-- The value after the refill step of the acquire script: when
`released > 0`, refill, capping at `rate - zcard(permits)` whenever
`currentValue + released` would exceed `rate`. -/
def refillValue (rate now interval cur : Int) (ps : List PEntry) : Int :=
  if 0 < sweepReleased now interval ps then
    if rate < cur + sweepReleased now interval ps then
      rate - ((sweepRemaining now interval ps).length : Int)
    else cur + sweepReleased now interval ps
  else cur

/-- Score of the first member returned by
`zrange permits 0 0 withscores` (the set is ordered by score). -/
def minScore : List PEntry → Option Int
  | [] => none
  | e :: es =>
    match minScore es with
    | none => some e.score
    | some m => some (min e.score m)

/-- `redis.call('zadd', permits, score, member)`: update the score when
the member already exists, otherwise insert it. -/
def zadd (ps : List PEntry) (nonce : Nat) (p score : Int) : List PEntry :=
  if ps.any (fun e => decide (e.nonce = nonce) && decide (e.permits = p)) then
    ps.map (fun e =>
      if e.nonce = nonce ∧ e.permits = p then { e with score := score } else e)
  else ps ++ [⟨nonce, p, score⟩]

/-- `redis.call('hsetnx', key, field, v)`: returns the new field value
and `1` iff the write happened. -/
def hsetnx (cur : Option Int) (v : Int) : Option Int × Int :=
  match cur with
  | none => (some v, 1)
  | some w => (some w, 0)

/-- The `trySetRateScript`: `hsetnx` for rate, interval and type, and
the result of the last `hsetnx` as the script result. -/
def trySetRateScript (rate interval rtype : Int) (s : RLState) :
    Int × RLState :=
  let r1 := hsetnx s.config.rate rate
  let r2 := hsetnx s.config.interval interval
  let r3 := hsetnx s.config.rtype rtype
  (r3.2, { s with config := ⟨r1.1, r2.1, r3.1⟩ })

/-- `TrySetRate`: runs the script and reports whether it returned 1. -/
def TrySetRate (rate interval rtype : Int) (s : RLState) : Bool × RLState :=
  let r := trySetRateScript rate interval rtype s
  (r.1 = 1, r.2)

/-- The `setRateScript` with the keys passed by `setRateLua`: overwrite
the three config fields and delete the cluster-wide value and permits
keys (`KEYS[2] = valueKey`, `KEYS[3] = permitsKey`). -/
def setRateScript (rate interval rtype : Int) (s : RLState) : RLState :=
  { s with
    config := ⟨some rate, some interval, some rtype⟩,
    ovValue := none, ovPermits := [],
    ovValueTtl := none, ovPermitsTtl := none }

/-- The body of `tryAcquireScript` on the selected value/permits pair:
returns the script result (`none` = acquired) and the new pair.  On the
Lua runtime error raised when `zrange` finds no first member, the
effects already applied (the sweep) persist. -/
def acquireOnPair (rate interval p now : Int) (nonce : Nat)
    (v : Option Int) (ps : List PEntry) :
    Except String (Option Int) × Option Int × List PEntry :=
  match v with
  | some cur =>
    let cur1 := refillValue rate now interval cur ps
    let ps1 := postSweep now interval ps
    if cur1 < p then
      match minScore ps1 with
      | none =>
        (Except.error "attempt to perform arithmetic on a nil value",
         some cur1, ps1)
      | some fs =>
        (Except.ok (some (3 + interval - (now - fs))), some cur1, ps1)
    else
      (Except.ok none, some (cur1 - p), zadd ps1 nonce p now)
  | none =>
    (Except.ok none, some (rate - p), zadd ps nonce p now)

/-- TTL propagation at the end of the acquire script, per-client pair:
`pttl KEYS[1] > 0` → `pexpire` the value and permits keys. -/
def applyTtlCl (s : RLState) : RLState :=
  match s.cfgTtl with
  | some t =>
    if 0 < t then { s with clValueTtl := some t, clPermitsTtl := some t }
    else s
  | none => s

/-- TTL propagation, cluster-wide pair. -/
def applyTtlOv (s : RLState) : RLState :=
  match s.cfgTtl with
  | some t =>
    if 0 < t then { s with ovValueTtl := some t, ovPermitsTtl := some t }
    else s
  | none => s

/-- The full `tryAcquireScript` with `ARGV = (permits, now, nonce)`:
assert the config, select the pair by `type == '1'`, assert
`rate >= permits`, then run the pair body and propagate the config TTL.
Failed asserts leave the store unchanged; the mid-script runtime error
keeps the sweep's effects (Redis does not roll scripts back). -/
def tryAcquireScript (p now : Int) (nonce : Nat) (s : RLState) :
    Except String (Option Int) × RLState :=
  match s.config.rate, s.config.interval, s.config.rtype with
  | some rate, some interval, some t =>
    if rate < p then
      (Except.error "Requested permits amount could not exceed defined rate", s)
    else if t = 1 then
      let out := acquireOnPair rate interval p now nonce s.clValue s.clPermits
      match out.1 with
      | Except.error e =>
        (Except.error e, { s with clValue := out.2.1, clPermits := out.2.2 })
      | Except.ok r =>
        (Except.ok r,
         applyTtlCl { s with clValue := out.2.1, clPermits := out.2.2 })
    else
      let out := acquireOnPair rate interval p now nonce s.ovValue s.ovPermits
      match out.1 with
      | Except.error e =>
        (Except.error e, { s with ovValue := out.2.1, ovPermits := out.2.2 })
      | Except.ok r =>
        (Except.ok r,
         applyTtlOv { s with ovValue := out.2.1, ovPermits := out.2.2 })
  | _, _, _ => (Except.error "RateLimiter is not initialized", s)

/-- The body of `availablePermitsScript` on the selected pair: on the
cold path set the value to `rate` and return it without touching the
permits set; otherwise sweep and, when `released > 0`, add the released
counts to the value (no cap) and store it. -/
def availableOnPair (rate interval now : Int) (v : Option Int)
    (ps : List PEntry) : Int × Option Int × List PEntry :=
  match v with
  | none => (rate, some rate, ps)
  | some cur =>
    if 0 < sweepReleased now interval ps then
      (cur + sweepReleased now interval ps,
       some (cur + sweepReleased now interval ps),
       sweepRemaining now interval ps)
    else (cur, some cur, ps)

/-- The full `availablePermitsScript` with `ARGV[1] = now`. -/
def availablePermitsScript (now : Int) (s : RLState) :
    Except String Int × RLState :=
  match s.config.rate, s.config.interval, s.config.rtype with
  | some rate, some interval, some t =>
    if t = 1 then
      let out := availableOnPair rate interval now s.clValue s.clPermits
      (Except.ok out.1, { s with clValue := out.2.1, clPermits := out.2.2 })
    else
      let out := availableOnPair rate interval now s.ovValue s.ovPermits
      (Except.ok out.1, { s with ovValue := out.2.1, ovPermits := out.2.2 })
  | _, _, _ => (Except.error "RateLimiter is not initialized", s)

/-- Number of fields present in the config hash (`HGetAll` length). -/
def hashLen (c : ConfigHash) : Nat :=
  (if c.rate.isSome then 1 else 0) + (if c.interval.isSome then 1 else 0) +
    (if c.rtype.isSome then 1 else 0)

/-- `GetConfig`: errors (`none`) when the hash is empty, otherwise
parses the three fields (a missing field parses as 0), returned as
`(rate, interval, type)`. -/
def GetConfig (s : RLState) : Option (Int × Int × Int) :=
  if hashLen s.config = 0 then none
  else some (s.config.rate.getD 0, s.config.interval.getD 0,
             s.config.rtype.getD 0)

/-- A sequence of `TrySetRate` calls, collecting the returned booleans. -/
def runTrySetRate : RLState → List (Int × Int × Int) → List Bool × RLState
  | s, [] => ([], s)
  | s, (r, i, t) :: rest =>
    let fst := TrySetRate r i t s
    let tail := runTrySetRate fst.2 rest
    (fst.1 :: tail.1, tail.2)

/-- An atomic rate-limiter script execution. -/
inductive RLOp where
  | trySet (rate interval rtype : Int)
  | setRate (rate interval rtype : Int)
  | acquire (p now : Int) (nonce : Nat)
  | available (now : Int)
deriving DecidableEq, Repr

/-- State transition of one rate-limiter script. -/
def rlStep (op : RLOp) (s : RLState) : RLState :=
  match op with
  | .trySet r i t => (trySetRateScript r i t s).2
  | .setRate r i t => setRateScript r i t s
  | .acquire p now n => (tryAcquireScript p now n s).2
  | .available now => (availablePermitsScript now s).2

/-- State after a trace of scripts from the empty store. -/
def runRL (ops : List RLOp) : RLState :=
  ops.foldl (fun s op => rlStep op s) rlInit

/-- Trace side conditions: every acquire requests a nonnegative permit
count, and every `setRate` runs while the per-client keys are empty. -/
def opOKB (s : RLState) (op : RLOp) : Bool :=
  match op with
  | .setRate _ _ _ =>
    decide (s.clValue = none) && decide (s.clPermits = [])
  | .acquire p _ _ => decide (0 ≤ p)
  | _ => true

/-- `traceOKB s ops`: the side conditions hold at every step of the
trace run from `s`. -/
def traceOKB : RLState → List RLOp → Bool
  | _, [] => true
  | s, op :: rest => opOKB s op && traceOKB (rlStep op s) rest

/-- The value/permits pair selected by the `type` config field. -/
def selValue (s : RLState) : Option Int :=
  if s.config.rtype = some 1 then s.clValue else s.ovValue

/-- The permits set selected by the `type` config field. -/
def selPermits (s : RLState) : List PEntry :=
  if s.config.rtype = some 1 then s.clPermits else s.ovPermits

/-- Summed permit counts of the members still within the window at
time `now` (score greater than `now - interval`). -/
def inWindowSum (now interval : Int) (ps : List PEntry) : Int :=
  permitSum (ps.filter (fun e => decide (now - interval < e.score)))

/-- The bound claimed for the limiter: whenever the config and the
selected value key exist, the stored value plus the in-window permit
counts is at most the configured rate. -/
def claimBoundB (s : RLState) (now : Int) : Bool :=
  match s.config.rate, s.config.interval, selValue s with
  | some r, some i, some v =>
    decide (v + inWindowSum now i (selPermits s) ≤ r)
  | _, _, _ => true

/-- Invariant of one value/permits pair against the configured rate:
permit counts are nonnegative; a missing value key means no permits are
outstanding; a present value plus all outstanding permits is at most
the rate. -/
def pairOK (rate : Int) (v : Option Int) (ps : List PEntry) : Prop :=
  (∀ e ∈ ps, 0 ≤ e.permits) ∧
  match v with
  | none => ps = []
  | some x => x + permitSum ps ≤ rate

/-- Global invariant: the config hash is either empty with an empty
store, or fully set with both pairs satisfying `pairOK`. -/
def rlInv (s : RLState) : Prop :=
  (s.config = ⟨none, none, none⟩ ∧ s.ovValue = none ∧ s.ovPermits = [] ∧
    s.clValue = none ∧ s.clPermits = []) ∨
  (∃ r i t, s.config = ⟨some r, some i, some t⟩ ∧
    pairOK r s.ovValue s.ovPermits ∧ pairOK r s.clValue s.clPermits)

/-! ## Blocking acquisition (TryAcquirePermitsWithTimeout) -/

/-- The environment of one iteration of `TryAcquirePermitsWithTimeout`:
the script result (`none` = acquired, `some d` = wait `d` ms) and the
two `time.Since(start)` readings (nanoseconds) the iteration can take. -/
structure TryRound where
  res : Option Int
  e1 : Int
  e2 : Int
deriving DecidableEq, Repr

/-- `time.Duration(ms) * time.Millisecond` in nanoseconds. -/
def msToDur (ms : Int) : Int := ms * 1000000

/-- `TryAcquirePermitsWithTimeout` as a function of the oracle rounds
and the timeout (nanoseconds): returns `some b` when the call returns
`b`, `none` when the rounds were exhausted while still retrying, paired
with the list of sleeps performed (nanoseconds).  Mirrors the Go code:
script call; nil → true; `timeout < 0` → sleep the delay and recurse
with the same timeout; otherwise `remains = timeout - elapsed` with the
`remains ≤ 0`, `remains < delay` and post-sleep recheck branches. -/
def tryAcquireLoop : List TryRound → Int → Option Bool × List Int
  | [], _ => (none, [])
  | r :: rs, timeout =>
    match r.res with
    | none => (some true, [])
    | some delayMs =>
      if timeout < 0 then
        let rest := tryAcquireLoop rs timeout
        (rest.1, msToDur delayMs :: rest.2)
      else
        let remains := timeout - r.e1
        if remains ≤ 0 then (some false, [])
        else if remains < msToDur delayMs then (some false, [remains])
        else
          let newRemains := timeout - r.e2
          if newRemains ≤ 0 then (some false, [msToDur delayMs])
          else
            let rest := tryAcquireLoop rs newRemains
            (rest.1, msToDur delayMs :: rest.2)

/-! ## Lock: helper lemmas -/

theorem hincrby_nil (f : String) (d : Int) : hincrby [] f d = ([(f, d)], d) := rfl

theorem hget_hincrby_self (h : List (String × Int)) (f : String) (d : Int) :
    hget (hincrby h f d).1 f = some ((hget h f).getD 0 + d) := by
  induction h with
  | nil => simp [hincrby, hget]
  | cons p t ih =>
    obtain ⟨g, v⟩ := p
    by_cases hg : g = f
    · subst hg
      simp [hincrby, hget]
    · simp [hincrby, hget, hg, ih]

theorem hget_hincrby_other (h : List (String × Int)) (f g : String) (d : Int)
    (hne : g ≠ f) : hget (hincrby h f d).1 g = hget h g := by
  have hfg : ¬ f = g := fun e => hne e.symm
  induction h with
  | nil => simp [hincrby, hget, hfg]
  | cons p t ih =>
    obtain ⟨k, v⟩ := p
    by_cases hk : k = f
    · subst hk
      have hkg : ¬ k = g := hfg
      simp [hincrby, hget, hkg]
    · by_cases hkg : k = g
      · subst hkg
        simp [hincrby, hget, hk]
      · simp [hincrby, hget, hk, hkg, ih]

theorem hincrby_snd (h : List (String × Int)) (f : String) (d : Int) :
    (hincrby h f d).2 = (hget h f).getD 0 + d := by
  induction h with
  | nil => simp [hincrby, hget]
  | cons p t ih =>
    obtain ⟨g, v⟩ := p
    by_cases hg : g = f
    · subst hg
      simp [hincrby, hget]
    · simp [hincrby, hget, hg, ih]

theorem hincrby_ne_nil (h : List (String × Int)) (f : String) (d : Int) :
    (hincrby h f d).1 ≠ [] := by
  cases h with
  | nil => simp [hincrby]
  | cons p t =>
    obtain ⟨g, v⟩ := p
    by_cases hg : g = f <;> simp [hincrby, hg]

/-- From the invariant, the hash is empty or a single positive-count field. -/
theorem lockInv_cases {s : LockState} (h : lockInv s) :
    s.hash = [] ∨ ∃ f v, s.hash = [(f, v)] ∧ 0 < v := by
  obtain ⟨hlen, hpos⟩ := h
  cases hh : s.hash with
  | nil => exact Or.inl rfl
  | cons p t =>
    cases t with
    | nil =>
      exact Or.inr ⟨p.1, p.2, by simp [hh], hpos p (by simp [hh])⟩
    | cons q u => simp [hh] at hlen

theorem lockInv_init : lockInv lockInit := by
  constructor <;> simp [lockInit]

theorem lockInv_pexpire (s : LockState) (t : Int) (h : lockInv s) :
    lockInv (pexpire s t) := by
  unfold pexpire
  split
  · exact h
  · exact ⟨h.1, h.2⟩

theorem lockInv_step (op : LockOp) (s : LockState) (h : lockInv s) :
    lockInv (lockStep op s) := by
  rcases lockInv_cases h with hnil | ⟨f, v, hh, hv⟩
  · cases op with
    | tryLock lease owner =>
      simp [lockStep, tryLockInner, hnil, hincrby, pexpire, lockInv]
    | unlock lease owner =>
      have hex : ¬ hexists s.hash owner = true := by
        rw [hnil]; simp [hexists, hget]
      simp only [lockStep]
      unfold unlockInner
      rw [if_neg hex]
      exact h
    | renew lease owner =>
      have hex : ¬ hexists s.hash owner = true := by
        rw [hnil]; simp [hexists, hget]
      simp only [lockStep]
      unfold renewExpirationInner
      rw [if_neg hex]
      exact h
  · cases op with
    | tryLock lease owner =>
      have hne : ¬ s.hash = [] := by rw [hh]; simp
      by_cases ho : f = owner
      · have hex : hexists s.hash owner = true := by
          rw [hh]; simp [hexists, hget, ho]
        simp only [lockStep]
        unfold tryLockInner
        rw [if_neg hne, if_pos hex, hh, ho]
        simp [hincrby, pexpire, lockInv]
        omega
      · have hex : ¬ hexists s.hash owner = true := by
          rw [hh]; simp [hexists, hget, ho]
        simp only [lockStep]
        unfold tryLockInner
        rw [if_neg hne, if_neg hex]
        exact h
    | unlock lease owner =>
      by_cases ho : f = owner
      · have hex : hexists s.hash owner = true := by
          rw [hh]; simp [hexists, hget, ho]
        simp only [lockStep]
        unfold unlockInner
        rw [if_pos hex, hh, ho]
        by_cases hc : (0 : Int) < (hincrby [(owner, v)] owner (-1)).2
        · rw [if_pos hc]
          simp [hincrby] at hc
          simp [hincrby, pexpire, lockInv]
          omega
        · rw [if_neg hc]
          simp [lockInv]
      · have hex : ¬ hexists s.hash owner = true := by
          rw [hh]; simp [hexists, hget, ho]
        simp only [lockStep]
        unfold unlockInner
        rw [if_neg hex]
        exact h
    | renew lease owner =>
      simp only [lockStep]
      unfold renewExpirationInner
      by_cases ho : hexists s.hash owner = true
      · rw [if_pos ho]
        exact lockInv_pexpire s lease h
      · rw [if_neg ho]
        exact h

/-! ## Claim theorems: reentrant lock -/

/-- C1: starting from an absent lock key, after any finite sequence of
atomic tryLock, unlock and renew script executions by arbitrary owner
tags, the lock hash contains at most one owner field, and whenever the
hash exists its reentrancy counter field is strictly positive. -/
theorem lock_at_most_one_owner (ops : List LockOp) : lockInv (runLock ops) := by
  suffices h : ∀ (l : List LockOp) (s : LockState), lockInv s →
      lockInv (l.foldl (fun s op => lockStep op s) s) by
    exact h ops lockInit lockInv_init
  intro l
  induction l with
  | nil => intro s hs; simpa using hs
  | cons op t ih =>
    intro s hs
    exact ih (lockStep op s) (lockInv_step op s hs)

/-- Witness for C1: the invariant evaluated on a concrete trace. -/
theorem lock_at_most_one_owner_witness :
    lockInv (runLock
      [LockOp.tryLock 30000 "id:1", LockOp.tryLock 30000 "id:1",
       LockOp.tryLock 30000 "id:2", LockOp.unlock 30000 "id:1",
       LockOp.renew 30000 "id:1", LockOp.unlock 30000 "id:1"]) :=
  lock_at_most_one_owner
    [LockOp.tryLock 30000 "id:1", LockOp.tryLock 30000 "id:1",
     LockOp.tryLock 30000 "id:2", LockOp.unlock 30000 "id:1",
     LockOp.renew 30000 "id:1", LockOp.unlock 30000 "id:1"]

/-- C4: the tryLock script creates the hash at `(owner, 1)` with the
lease TTL and returns nil when the key is absent; increments the field
and refreshes the TTL, returning nil, when the owner field is present
(leaving other fields unchanged); otherwise leaves the state unchanged
and returns the key's remaining TTL. -/
theorem tryLock_cases (s : LockState) (lease : Int) (owner : String) :
    (s.hash = [] →
      tryLockInner lease owner s = (none, ⟨[(owner, 1)], some lease⟩)) ∧
    (∀ c, hget s.hash owner = some c →
      tryLockInner lease owner s =
        (none, ⟨(hincrby s.hash owner 1).1, some lease⟩) ∧
      hget (hincrby s.hash owner 1).1 owner = some (c + 1) ∧
      ∀ g, g ≠ owner → hget (hincrby s.hash owner 1).1 g = hget s.hash g) ∧
    (s.hash ≠ [] → hget s.hash owner = none →
      tryLockInner lease owner s = (some (pttl s), s)) := by
  refine ⟨?_, ?_, ?_⟩
  · intro hnil
    simp [tryLockInner, hnil, hincrby, pexpire]
  · intro c hc
    have hne : s.hash ≠ [] := by
      intro h0
      rw [h0] at hc
      simp [hget] at hc
    have hex : hexists s.hash owner = true := by
      simp [hexists, hc]
    refine ⟨?_, ?_, ?_⟩
    · simp [tryLockInner, hne, hex, pexpire, hincrby_ne_nil]
    · rw [hget_hincrby_self, hc]
      rfl
    · intro g hg
      exact hget_hincrby_other s.hash owner g 1 hg
  · intro hne hnone
    have hex : hexists s.hash owner = false := by
      simp [hexists, hnone]
    simp [tryLockInner, hne, hex]

/-- Witness for C4: concrete instantiations of the reentrant branch and
the held-by-other branch. -/
theorem tryLock_cases_witness :
    (tryLockInner 30000 "id:1" ⟨[("id:1", 2)], some 7⟩ =
      (none, ⟨(hincrby [("id:1", 2)] "id:1" 1).1, some 30000⟩) ∧
     hget (hincrby [("id:1", 2)] "id:1" 1).1 "id:1" = some (2 + 1) ∧
     ∀ g, g ≠ "id:1" →
       hget (hincrby [("id:1", 2)] "id:1" 1).1 g = hget [("id:1", 2)] g) ∧
    tryLockInner 30000 "id:2" ⟨[("id:1", 2)], some 7⟩ =
      (some (pttl ⟨[("id:1", 2)], some 7⟩), ⟨[("id:1", 2)], some 7⟩) :=
  ⟨(tryLock_cases ⟨[("id:1", 2)], some 7⟩ 30000 "id:1").2.1 2 (by decide),
   (tryLock_cases ⟨[("id:1", 2)], some 7⟩ 30000 "id:2").2.2
     (by decide) (by decide)⟩

/-- C5: the unlock script returns nil and changes nothing when the owner
field is absent; otherwise it decrements the field and, when the result
is positive, refreshes the TTL and returns 0 (publishing nothing), else
deletes the key, publishes the message 0 on the channel and returns 1. -/
theorem unlock_cases (s : LockState) (lease : Int) (owner : String) :
    (hget s.hash owner = none →
      unlockInner unlockMessage lease owner s = (none, s, [])) ∧
    (∀ c, hget s.hash owner = some c → 0 < c - 1 →
      unlockInner unlockMessage lease owner s =
        (some 0, ⟨(hincrby s.hash owner (-1)).1, some lease⟩, []) ∧
      hget (hincrby s.hash owner (-1)).1 owner = some (c - 1)) ∧
    (∀ c, hget s.hash owner = some c → c - 1 ≤ 0 →
      unlockInner unlockMessage lease owner s = (some 1, ⟨[], none⟩, [0])) := by
  refine ⟨?_, ?_, ?_⟩
  · intro hnone
    simp [unlockInner, hexists, hnone]
  · intro c hc hpos
    have hex : hexists s.hash owner = true := by simp [hexists, hc]
    have hsnd : (hincrby s.hash owner (-1)).2 = c - 1 := by
      rw [hincrby_snd, hc]
      simp
      ring
    refine ⟨?_, ?_⟩
    · simp [unlockInner, hex, hsnd, hpos, pexpire, hincrby_ne_nil]
    · rw [hget_hincrby_self, hc]
      simp
      ring
  · intro c hc hle
    have hex : hexists s.hash owner = true := by simp [hexists, hc]
    have hsnd : (hincrby s.hash owner (-1)).2 = c - 1 := by
      rw [hincrby_snd, hc]
      simp
      ring
    have hneg : ¬ (0 : Int) < (hincrby s.hash owner (-1)).2 := by
      rw [hsnd]; omega
    simp [unlockInner, hex, hneg, unlockMessage]

/-- Witness for C5: a reentrant release and a final release on concrete
states. -/
theorem unlock_cases_witness :
    (unlockInner unlockMessage 30000 "id:1" ⟨[("id:1", 2)], some 7⟩ =
      (some 0, ⟨(hincrby [("id:1", 2)] "id:1" (-1)).1, some 30000⟩, []) ∧
     hget (hincrby [("id:1", 2)] "id:1" (-1)).1 "id:1" = some (2 - 1)) ∧
    unlockInner unlockMessage 30000 "id:1" ⟨[("id:1", 1)], some 7⟩ =
      (some 1, ⟨[], none⟩, [0]) :=
  ⟨(unlock_cases ⟨[("id:1", 2)], some 7⟩ 30000 "id:1").2.1 2
     (by decide) (by decide),
   (unlock_cases ⟨[("id:1", 1)], some 7⟩ 30000 "id:1").2.2 1
     (by decide) (by decide)⟩

/-- C9: a transport-error-free `UnlockContext` reports the
not-locked-by-current-owner failure exactly when the unlock script
returned the nil sentinel, which happens exactly when the store holds
no ownership field for this owner tag; otherwise it succeeds. -/
theorem unlockContext_not_locked_iff (lease : Int) (owner : String)
    (s : LockState) :
    ((unlockContext lease owner s).1 = UnlockResult.notLockedByCurrentOwner ↔
      (unlockInner unlockMessage lease owner s).1 = none) ∧
    ((unlockInner unlockMessage lease owner s).1 = none ↔
      hget s.hash owner = none) ∧
    ((unlockContext lease owner s).1 = UnlockResult.ok ↔
      ¬ (unlockInner unlockMessage lease owner s).1 = none) := by
  refine ⟨?_, ?_, ?_⟩
  · unfold unlockContext
    cases hr : (unlockInner unlockMessage lease owner s).1 with
    | none => simp [hr]
    | some v => simp [hr]
  · by_cases hx : hexists s.hash owner
    · have hsome : ∃ c, hget s.hash owner = some c := by
        cases hc : hget s.hash owner with
        | none => simp [hexists, hc] at hx
        | some c => exact ⟨c, rfl⟩
      obtain ⟨c, hc⟩ := hsome
      by_cases hp : (0 : Int) < (hincrby s.hash owner (-1)).2 <;>
        simp [unlockInner, hx, hp, hc]
    · have hnone : hget s.hash owner = none := by
        cases hc : hget s.hash owner with
        | none => rfl
        | some c => simp [hexists, hc] at hx
      simp [unlockInner, hx, hnone]
  · unfold unlockContext
    cases hr : (unlockInner unlockMessage lease owner s).1 with
    | none => simp [hr]
    | some v => simp [hr]

/-! ## Rate limiter: helper lemmas -/

theorem permitSum_nil : permitSum [] = 0 := rfl

theorem permitSum_cons (e : PEntry) (ps : List PEntry) :
    permitSum (e :: ps) = e.permits + permitSum ps := by
  simp [permitSum]

theorem permitSum_filter_split (f : PEntry → Bool) (ps : List PEntry) :
    permitSum (ps.filter f) + permitSum (ps.filter (fun e => ! f e)) =
      permitSum ps := by
  induction ps with
  | nil => simp [permitSum]
  | cons e t ih =>
    by_cases hf : f e
    · simp [List.filter, hf, permitSum_cons]
      omega
    · simp [List.filter, hf, permitSum_cons]
      omega

theorem permitSum_nonneg (ps : List PEntry)
    (h : ∀ e ∈ ps, 0 ≤ e.permits) : 0 ≤ permitSum ps := by
  induction ps with
  | nil => simp [permitSum]
  | cons e t ih =>
    rw [permitSum_cons]
    have h1 := h e (by simp)
    have h2 := ih (fun x hx => h x (by simp [hx]))
    omega

theorem permitSum_filter_le (f : PEntry → Bool) (ps : List PEntry)
    (h : ∀ e ∈ ps, 0 ≤ e.permits) : permitSum (ps.filter f) ≤ permitSum ps := by
  have hs := permitSum_filter_split f ps
  have hn : 0 ≤ permitSum (ps.filter (fun e => ! f e)) := by
    refine permitSum_nonneg _ (fun e he => h e ?_)
    exact (List.mem_filter.mp he).1
  omega

theorem sweepSplit (now interval : Int) (ps : List PEntry) :
    sweepReleased now interval ps + permitSum (sweepRemaining now interval ps) =
      permitSum ps :=
  permitSum_filter_split (expiredB now interval) ps

theorem sweepReleased_nonneg (now interval : Int) (ps : List PEntry)
    (h : ∀ e ∈ ps, 0 ≤ e.permits) : 0 ≤ sweepReleased now interval ps := by
  refine permitSum_nonneg _ (fun e he => h e ?_)
  exact (List.mem_filter.mp he).1

theorem sweepRemaining_nonneg (now interval : Int) (ps : List PEntry)
    (h : ∀ e ∈ ps, 0 ≤ e.permits) :
    ∀ e ∈ sweepRemaining now interval ps, 0 ≤ e.permits := by
  intro e he
  exact h e (List.mem_filter.mp he).1

theorem permitSum_map_update (ps : List PEntry) (nonce : Nat)
    (p score : Int) :
    permitSum (ps.map (fun e =>
      if e.nonce = nonce ∧ e.permits = p then { e with score := score }
      else e)) = permitSum ps := by
  induction ps with
  | nil => simp [permitSum]
  | cons e t ih =>
    by_cases he : e.nonce = nonce ∧ e.permits = p <;>
      simp [he, permitSum_cons, ih]

theorem permitSum_append_one (ps : List PEntry) (x : PEntry) :
    permitSum (ps ++ [x]) = permitSum ps + x.permits := by
  induction ps with
  | nil => simp [permitSum]
  | cons e t ih =>
    simp only [List.cons_append, permitSum_cons, ih]
    omega

theorem permitSum_zadd_le (ps : List PEntry) (nonce : Nat) (p score : Int)
    (hp : 0 ≤ p) : permitSum (zadd ps nonce p score) ≤ permitSum ps + p := by
  unfold zadd
  split
  · have h := permitSum_map_update ps nonce p score
    omega
  · have h := permitSum_append_one ps ⟨nonce, p, score⟩
    simp only at h
    omega

theorem zadd_nonneg (ps : List PEntry) (nonce : Nat) (p score : Int)
    (h : ∀ e ∈ ps, 0 ≤ e.permits) (hp : 0 ≤ p) :
    ∀ e ∈ zadd ps nonce p score, 0 ≤ e.permits := by
  unfold zadd
  split
  · intro e he
    obtain ⟨x, hx, hmap⟩ := List.mem_map.mp he
    by_cases hc : x.nonce = nonce ∧ x.permits = p
    · rw [if_pos hc] at hmap
      rw [← hmap]
      exact h x hx
    · rw [if_neg hc] at hmap
      rw [← hmap]
      exact h x hx
  · intro e he
    rcases List.mem_append.mp he with h1 | h2
    · exact h e h1
    · simp at h2
      rw [h2]
      exact hp

theorem refill_no_cap (rate now interval cur : Int) (ps : List PEntry)
    (hnn : ∀ e ∈ ps, 0 ≤ e.permits) (hle : cur + permitSum ps ≤ rate) :
    refillValue rate now interval cur ps = cur + sweepReleased now interval ps ∧
    sweepReleased now interval ps + permitSum (postSweep now interval ps) =
      permitSum ps := by
  have hs := sweepSplit now interval ps
  have hrel := sweepReleased_nonneg now interval ps hnn
  have hrem : 0 ≤ permitSum (sweepRemaining now interval ps) :=
    permitSum_nonneg _ (sweepRemaining_nonneg now interval ps hnn)
  have hcap : ¬ rate < cur + sweepReleased now interval ps := by omega
  unfold refillValue postSweep
  by_cases h0 : 0 < sweepReleased now interval ps
  · rw [if_pos h0, if_pos h0, if_neg hcap]
    exact ⟨rfl, hs⟩
  · rw [if_neg h0, if_neg h0]
    constructor
    · omega
    · omega

theorem pairOK_acquireOnPair (rate interval p now : Int) (nonce : Nat)
    (v : Option Int) (ps : List PEntry)
    (hOK : pairOK rate v ps) (hp : 0 ≤ p) :
    pairOK rate (acquireOnPair rate interval p now nonce v ps).2.1
      (acquireOnPair rate interval p now nonce v ps).2.2 := by
  obtain ⟨hnn, hsum⟩ := hOK
  cases v with
  | none =>
    have hps : ps = [] := hsum
    subst hps
    simp only [acquireOnPair]
    constructor
    · exact zadd_nonneg [] nonce p now (by simp) hp
    · have h := permitSum_zadd_le [] nonce p now hp
      simp only [permitSum_nil] at h
      show rate - p + permitSum (zadd [] nonce p now) ≤ rate
      omega
  | some cur =>
    have hsum2 : cur + permitSum ps ≤ rate := hsum
    obtain ⟨hrefill, hsplit⟩ := refill_no_cap rate now interval cur ps hnn hsum2
    have hnn1 : ∀ e ∈ postSweep now interval ps, 0 ≤ e.permits := by
      unfold postSweep
      split
      · exact sweepRemaining_nonneg now interval ps hnn
      · exact hnn
    have hbound : refillValue rate now interval cur ps +
        permitSum (postSweep now interval ps) ≤ rate := by
      rw [hrefill]
      omega
    simp only [acquireOnPair]
    by_cases hlt : refillValue rate now interval cur ps < p
    · rw [if_pos hlt]
      cases hms : minScore (postSweep now interval ps) with
      | none => exact ⟨hnn1, hbound⟩
      | some fs => exact ⟨hnn1, hbound⟩
    · rw [if_neg hlt]
      constructor
      · exact zadd_nonneg _ nonce p now hnn1 hp
      · have hz := permitSum_zadd_le (postSweep now interval ps) nonce p now hp
        show refillValue rate now interval cur ps - p +
          permitSum (zadd (postSweep now interval ps) nonce p now) ≤ rate
        omega

theorem pairOK_availableOnPair (rate interval now : Int)
    (v : Option Int) (ps : List PEntry) (hOK : pairOK rate v ps) :
    pairOK rate (availableOnPair rate interval now v ps).2.1
      (availableOnPair rate interval now v ps).2.2 := by
  obtain ⟨hnn, hsum⟩ := hOK
  cases v with
  | none =>
    have hps : ps = [] := hsum
    subst hps
    simp only [availableOnPair]
    refine ⟨by simp, ?_⟩
    show rate + permitSum ([] : List PEntry) ≤ rate
    simp [permitSum_nil]
  | some cur =>
    have hsum2 : cur + permitSum ps ≤ rate := hsum
    have hsplit := sweepSplit now interval ps
    simp only [availableOnPair]
    by_cases h0 : 0 < sweepReleased now interval ps
    · rw [if_pos h0]
      refine ⟨sweepRemaining_nonneg now interval ps hnn, ?_⟩
      show cur + sweepReleased now interval ps +
        permitSum (sweepRemaining now interval ps) ≤ rate
      omega
    · rw [if_neg h0]
      exact ⟨hnn, hsum2⟩

theorem applyTtlCl_proj (s : RLState) :
    (applyTtlCl s).config = s.config ∧ (applyTtlCl s).ovValue = s.ovValue ∧
    (applyTtlCl s).clValue = s.clValue ∧
    (applyTtlCl s).ovPermits = s.ovPermits ∧
    (applyTtlCl s).clPermits = s.clPermits := by
  unfold applyTtlCl
  cases s.cfgTtl with
  | none => exact ⟨rfl, rfl, rfl, rfl, rfl⟩
  | some t => by_cases h : 0 < t <;> simp [h]

theorem applyTtlOv_proj (s : RLState) :
    (applyTtlOv s).config = s.config ∧ (applyTtlOv s).ovValue = s.ovValue ∧
    (applyTtlOv s).clValue = s.clValue ∧
    (applyTtlOv s).ovPermits = s.ovPermits ∧
    (applyTtlOv s).clPermits = s.clPermits := by
  unfold applyTtlOv
  cases s.cfgTtl with
  | none => exact ⟨rfl, rfl, rfl, rfl, rfl⟩
  | some t => by_cases h : 0 < t <;> simp [h]

theorem pairOK_empty (rate : Int) : pairOK rate none [] := by
  constructor
  · simp
  · rfl

theorem rlInv_init : rlInv rlInit := by
  left
  exact ⟨rfl, rfl, rfl, rfl, rfl⟩

theorem rlInv_trySet (s : RLState) (r i t : Int) (h : rlInv s) :
    rlInv (trySetRateScript r i t s).2 := by
  rcases h with ⟨hc, hov, hovp, hcl, hclp⟩ | ⟨r0, i0, t0, hc, hov, hcl⟩
  · right
    refine ⟨r, i, t, ?_, ?_, ?_⟩
    · simp [trySetRateScript, hc, hsetnx]
    · show pairOK r s.ovValue s.ovPermits
      rw [hov, hovp]
      exact pairOK_empty r
    · show pairOK r s.clValue s.clPermits
      rw [hcl, hclp]
      exact pairOK_empty r
  · right
    refine ⟨r0, i0, t0, ?_, ?_, ?_⟩
    · simp [trySetRateScript, hc, hsetnx]
    · show pairOK r0 s.ovValue s.ovPermits
      exact hov
    · show pairOK r0 s.clValue s.clPermits
      exact hcl

theorem rlInv_setRate (s : RLState) (r i t : Int)
    (hclv : s.clValue = none) (hclp : s.clPermits = []) (_h : rlInv s) :
    rlInv (setRateScript r i t s) := by
  right
  refine ⟨r, i, t, rfl, pairOK_empty r, ?_⟩
  show pairOK r s.clValue s.clPermits
  rw [hclv, hclp]
  exact pairOK_empty r

theorem rlInv_acquire (s : RLState) (p now : Int) (nonce : Nat)
    (hp : 0 ≤ p) (h : rlInv s) : rlInv (tryAcquireScript p now nonce s).2 := by
  rcases h with ⟨hc, hov, hovp, hcl, hclp⟩ | ⟨r, i, t, hc, hov, hcl⟩
  · have : (tryAcquireScript p now nonce s).2 = s := by
      simp [tryAcquireScript, hc]
    rw [this]
    left
    exact ⟨hc, hov, hovp, hcl, hclp⟩
  · by_cases hrp : r < p
    · have hstate : (tryAcquireScript p now nonce s).2 = s := by
        simp [tryAcquireScript, hc, hrp]
      rw [hstate]
      right
      exact ⟨r, i, t, hc, hov, hcl⟩
    · by_cases ht : t = 1
      · have hpair := pairOK_acquireOnPair r i p now nonce s.clValue s.clPermits hcl hp
        rcases hEq : acquireOnPair r i p now nonce s.clValue s.clPermits with ⟨res, v2, ps2⟩
        rw [hEq] at hpair
        cases res with
        | error e =>
          have hstate : (tryAcquireScript p now nonce s).2 =
              { s with clValue := v2, clPermits := ps2 } := by
            simp [tryAcquireScript, hc, hrp, ht, hEq]
          rw [hstate]
          right
          exact ⟨r, i, t, hc, hov, hpair⟩
        | ok v =>
          have hstate : (tryAcquireScript p now nonce s).2 =
              applyTtlCl { s with clValue := v2, clPermits := ps2 } := by
            simp [tryAcquireScript, hc, hrp, ht, hEq]
          rw [hstate]
          obtain ⟨h1, h2, h3, h4, h5⟩ := applyTtlCl_proj
            { s with clValue := v2, clPermits := ps2 }
          right
          refine ⟨r, i, t, ?_, ?_, ?_⟩
          · rw [h1]; exact hc
          · rw [h2, h4]; exact hov
          · rw [h3, h5]; exact hpair
      · have hpair := pairOK_acquireOnPair r i p now nonce s.ovValue s.ovPermits hov hp
        rcases hEq : acquireOnPair r i p now nonce s.ovValue s.ovPermits with ⟨res, v2, ps2⟩
        rw [hEq] at hpair
        cases res with
        | error e =>
          have hstate : (tryAcquireScript p now nonce s).2 =
              { s with ovValue := v2, ovPermits := ps2 } := by
            simp [tryAcquireScript, hc, hrp, ht, hEq]
          rw [hstate]
          right
          exact ⟨r, i, t, hc, hpair, hcl⟩
        | ok v =>
          have hstate : (tryAcquireScript p now nonce s).2 =
              applyTtlOv { s with ovValue := v2, ovPermits := ps2 } := by
            simp [tryAcquireScript, hc, hrp, ht, hEq]
          rw [hstate]
          obtain ⟨h1, h2, h3, h4, h5⟩ := applyTtlOv_proj
            { s with ovValue := v2, ovPermits := ps2 }
          right
          refine ⟨r, i, t, ?_, ?_, ?_⟩
          · rw [h1]; exact hc
          · rw [h2, h4]; exact hpair
          · rw [h3, h5]; exact hcl

theorem rlInv_available (s : RLState) (now : Int) (h : rlInv s) :
    rlInv (availablePermitsScript now s).2 := by
  rcases h with ⟨hc, hov, hovp, hcl, hclp⟩ | ⟨r, i, t, hc, hov, hcl⟩
  · have : (availablePermitsScript now s).2 = s := by
      simp [availablePermitsScript, hc]
    rw [this]
    left
    exact ⟨hc, hov, hovp, hcl, hclp⟩
  · by_cases ht : t = 1
    · have hpair := pairOK_availableOnPair r i now s.clValue s.clPermits hcl
      rcases hEq : availableOnPair r i now s.clValue s.clPermits with ⟨res, v2, ps2⟩
      rw [hEq] at hpair
      have hstate : (availablePermitsScript now s).2 =
          { s with clValue := v2, clPermits := ps2 } := by
        simp [availablePermitsScript, hc, ht, hEq]
      rw [hstate]
      right
      exact ⟨r, i, t, hc, hov, hpair⟩
    · have hpair := pairOK_availableOnPair r i now s.ovValue s.ovPermits hov
      rcases hEq : availableOnPair r i now s.ovValue s.ovPermits with ⟨res, v2, ps2⟩
      rw [hEq] at hpair
      have hstate : (availablePermitsScript now s).2 =
          { s with ovValue := v2, ovPermits := ps2 } := by
        simp [availablePermitsScript, hc, ht, hEq]
      rw [hstate]
      right
      exact ⟨r, i, t, hc, hpair, hcl⟩

theorem rlInv_step (op : RLOp) (s : RLState) (h : rlInv s)
    (hok : opOKB s op = true) : rlInv (rlStep op s) := by
  cases op with
  | trySet r i t => exact rlInv_trySet s r i t h
  | setRate r i t =>
    simp only [opOKB, Bool.and_eq_true, decide_eq_true_eq] at hok
    exact rlInv_setRate s r i t hok.1 hok.2 h
  | acquire p now n =>
    simp only [opOKB, decide_eq_true_eq] at hok
    exact rlInv_acquire s p now n hok h
  | available now => exact rlInv_available s now h

theorem rlInv_claimBound (s : RLState) (now : Int) (h : rlInv s) :
    claimBoundB s now = true := by
  rcases h with ⟨hc, hov, hovp, hcl, hclp⟩ | ⟨r, i, t, hc, hov, hcl⟩
  · simp [claimBoundB, hc]
  · have hsel : selValue s = if t = 1 then s.clValue else s.ovValue := by
      unfold selValue
      rw [hc]
      by_cases ht : t = 1
      · rw [if_pos ht, ht]
        simp
      · rw [if_neg ht]
        have : ¬ (⟨some r, some i, some t⟩ : ConfigHash).rtype = some 1 := by
          simp [ht]
        rw [if_neg this]
    have hselp : selPermits s = if t = 1 then s.clPermits else s.ovPermits := by
      unfold selPermits
      rw [hc]
      by_cases ht : t = 1
      · rw [if_pos ht, ht]
        simp
      · rw [if_neg ht]
        have : ¬ (⟨some r, some i, some t⟩ : ConfigHash).rtype = some 1 := by
          simp [ht]
        rw [if_neg this]
    have key : ∀ (v0 : Option Int) (ps0 : List PEntry), pairOK r v0 ps0 →
        selValue s = v0 → selPermits s = ps0 → claimBoundB s now = true := by
      intro v0 ps0 hOK hv hps
      obtain ⟨hnn, hsum⟩ := hOK
      unfold claimBoundB
      rw [hc, hv, hps]
      cases v0 with
      | none => rfl
      | some x =>
        have hx : x + permitSum ps0 ≤ r := hsum
        have hw : inWindowSum now i ps0 ≤ permitSum ps0 :=
          permitSum_filter_le _ ps0 hnn
        simp only [decide_eq_true_eq]
        omega
    by_cases ht : t = 1
    · exact key s.clValue s.clPermits hcl (by rw [hsel, if_pos ht])
        (by rw [hselp, if_pos ht])
    · exact key s.ovValue s.ovPermits hov (by rw [hsel, if_neg ht])
        (by rw [hselp, if_neg ht])

/-! ## Claim theorems: rate limiter -/

/-- C2 (counterexample): after the trace TrySetRate(per-client, rate 2),
acquire 2 permits at time 0, SetRate(per-client, rate 1), the selected
(per-client) value key holds 0 while a still-within-window member holds
2 permits against the new rate 1 — the claimed bound fails right after
the set-rate script completes, because the script deletes only the
cluster-wide keys. -/
theorem rl_bound_counterexample :
    claimBoundB (runRL [RLOp.trySet 2 10 1, RLOp.acquire 2 0 7,
      RLOp.setRate 1 10 1]) 5 = false := by decide

/-- C2 (amended): for every trace in which each acquire requests a
nonnegative permit count and each set-rate runs while the per-client
keys are empty, the value stored under the selected value key plus the
permit counts of the still-within-window members of the selected
permits set is at most the configured rate, at every inspection time. -/
theorem rl_bound_invariant (ops : List RLOp) (now : Int)
    (h : traceOKB rlInit ops = true) :
    claimBoundB (runRL ops) now = true := by
  suffices key : ∀ (l : List RLOp) (s : RLState), rlInv s →
      traceOKB s l = true → rlInv (l.foldl (fun s op => rlStep op s) s) by
    exact rlInv_claimBound _ now (key ops rlInit rlInv_init h)
  intro l
  induction l with
  | nil =>
    intro s hs _
    simpa using hs
  | cons op rest ih =>
    intro s hs hok
    simp only [traceOKB, Bool.and_eq_true] at hok
    simp only [List.foldl_cons]
    exact ih (rlStep op s) (rlInv_step op s hs hok.1) hok.2

/-- Witness for C2: the bound evaluated on a concrete admissible trace
that reconfigures the rate downwards in cluster-wide mode. -/
theorem rl_bound_invariant_witness :
    traceOKB rlInit [RLOp.trySet 2 10 0, RLOp.acquire 1 0 7,
      RLOp.setRate 1 5 0, RLOp.acquire 1 3 8] = true ∧
    claimBoundB (runRL [RLOp.trySet 2 10 0, RLOp.acquire 1 0 7,
      RLOp.setRate 1 5 0, RLOp.acquire 1 3 8]) 3 = true :=
  ⟨by decide,
   rl_bound_invariant
     [RLOp.trySet 2 10 0, RLOp.acquire 1 0 7, RLOp.setRate 1 5 0,
      RLOp.acquire 1 3 8] 3 (by decide)⟩

/-- C3 (counterexample): on the state reached by TrySetRate(rate 1,
interval 10) and a cold acquire of 1 permit at time 5, an acquire of 1
permit at time 6 returns 15 - 1 = 12 ms — the script result is
`3 + interval - (now - firstScore)`, not the claimed
`interval - (now - firstScore) = 9`. -/
theorem rl_delay_counterexample :
    (tryAcquireScript 1 6 9
      (runRL [RLOp.trySet 1 10 0, RLOp.acquire 1 5 7])).1 =
      Except.ok (some 12) ∧ ¬ ((12 : Int) = 10 - (6 - 5)) := by
  constructor
  · rfl
  · decide

/-- C3 (amended): whenever, after the sweep, the selected current value
is below the requested permits and the permits set has an earliest
member with score `fs`, the acquire script returns exactly
`3 + interval - (now - fs)` milliseconds. -/
theorem rl_delay_formula (s : RLState) (p now : Int) (nonce : Nat)
    (rate interval t cur fs : Int)
    (hc : s.config = ⟨some rate, some interval, some t⟩)
    (hp : p ≤ rate)
    (hv : selValue s = some cur)
    (hlt : refillValue rate now interval cur (selPermits s) < p)
    (hfs : minScore (postSweep now interval (selPermits s)) = some fs) :
    (tryAcquireScript p now nonce s).1 =
      Except.ok (some (3 + interval - (now - fs))) := by
  have hrp : ¬ rate < p := not_lt.mpr hp
  by_cases ht : t = 1
  · have hrt : s.config.rtype = some 1 := by rw [hc, ht]
    have hv2 : s.clValue = some cur := by
      unfold selValue at hv
      rw [if_pos hrt] at hv
      exact hv
    have hps : selPermits s = s.clPermits := by
      unfold selPermits
      rw [if_pos hrt]
    rw [hps] at hlt hfs
    have hbody : acquireOnPair rate interval p now nonce s.clValue s.clPermits =
        (Except.ok (some (3 + interval - (now - fs))),
         some (refillValue rate now interval cur s.clPermits),
         postSweep now interval s.clPermits) := by
      rw [hv2]
      simp only [acquireOnPair]
      rw [if_pos hlt, hfs]
    simp [tryAcquireScript, hc, hrp, ht, hbody]
  · have hrt : ¬ s.config.rtype = some 1 := by
      rw [hc]
      simp [ht]
    have hv2 : s.ovValue = some cur := by
      unfold selValue at hv
      rw [if_neg hrt] at hv
      exact hv
    have hps : selPermits s = s.ovPermits := by
      unfold selPermits
      rw [if_neg hrt]
    rw [hps] at hlt hfs
    have hbody : acquireOnPair rate interval p now nonce s.ovValue s.ovPermits =
        (Except.ok (some (3 + interval - (now - fs))),
         some (refillValue rate now interval cur s.ovPermits),
         postSweep now interval s.ovPermits) := by
      rw [hv2]
      simp only [acquireOnPair]
      rw [if_pos hlt, hfs]
    simp [tryAcquireScript, hc, hrp, ht, hbody]

/-- Witness for C3 (amended): the delay formula evaluated on a concrete
state. -/
theorem rl_delay_formula_witness :
    (tryAcquireScript 1 6 9
      (⟨⟨some 10, some 10, some 0⟩, none, some 0, none, [⟨7, 1, 5⟩], [],
        none, none, none, none⟩ : RLState)).1 =
      Except.ok (some (3 + 10 - (6 - 5))) :=
  rl_delay_formula
    ⟨⟨some 10, some 10, some 0⟩, none, some 0, none, [⟨7, 1, 5⟩], [],
      none, none, none, none⟩
    1 6 9 10 10 0 0 5 rfl (by decide) (by decide) (by decide) (by decide)

theorem tryAcquireLoop_neg (rs : List TryRound) (timeout : Int)
    (hneg : timeout < 0) :
    (((tryAcquireLoop rs timeout).1 = some true) ↔ ∃ r ∈ rs, r.res = none) ∧
    (tryAcquireLoop rs timeout).1 ≠ some false := by
  induction rs with
  | nil => simp [tryAcquireLoop]
  | cons r rest ih =>
    cases hres : r.res with
    | none =>
      have h1 : tryAcquireLoop (r :: rest) timeout = (some true, []) := by
        simp [tryAcquireLoop, hres]
      rw [h1]
      constructor
      · constructor
        · intro _
          exact ⟨r, by simp, hres⟩
        · intro _
          rfl
      · simp
    | some d =>
      have h1 : tryAcquireLoop (r :: rest) timeout =
          ((tryAcquireLoop rest timeout).1,
           msToDur d :: (tryAcquireLoop rest timeout).2) := by
        simp [tryAcquireLoop, hres, hneg]
      obtain ⟨ih1, ih2⟩ := ih
      rw [h1]
      constructor
      · simp only
        rw [ih1]
        constructor
        · rintro ⟨x, hx, hxr⟩
          exact ⟨x, by simp [hx], hxr⟩
        · rintro ⟨x, hx, hxr⟩
          rcases List.mem_cons.mp hx with h | h
          · subst h
            rw [hres] at hxr
            cases hxr
          · exact ⟨x, h, hxr⟩
      · simpa using ih2

/-- C6: the blocking acquisition loop, over any oracle of script results
and elapsed-time readings: a nil script result returns true at once with
no sleep; with a negative timeout every returned delay is slept and the
loop retries indefinitely, succeeding exactly when some script call
returns nil and never returning false; with a nonnegative timeout,
writing `remains = timeout - elapsed`: `remains ≤ 0` returns false,
`0 < remains < delay` sleeps `remains` and returns false, and otherwise
the loop sleeps the delay, recomputes the remaining time, returns false
when it is exhausted and retries with it otherwise. -/
theorem tryAcquireWithTimeout_cases (rs : List TryRound)
    (timeout e1 e2 d : Int) :
    (tryAcquireLoop (⟨none, e1, e2⟩ :: rs) timeout = (some true, [])) ∧
    (timeout < 0 →
      tryAcquireLoop (⟨some d, e1, e2⟩ :: rs) timeout =
        ((tryAcquireLoop rs timeout).1,
         msToDur d :: (tryAcquireLoop rs timeout).2)) ∧
    (timeout < 0 →
      (((tryAcquireLoop rs timeout).1 = some true) ↔
        ∃ r ∈ rs, r.res = none) ∧
      (tryAcquireLoop rs timeout).1 ≠ some false) ∧
    (0 ≤ timeout → timeout - e1 ≤ 0 →
      tryAcquireLoop (⟨some d, e1, e2⟩ :: rs) timeout = (some false, [])) ∧
    (0 ≤ timeout → 0 < timeout - e1 → timeout - e1 < msToDur d →
      tryAcquireLoop (⟨some d, e1, e2⟩ :: rs) timeout =
        (some false, [timeout - e1])) ∧
    (0 ≤ timeout → 0 < timeout - e1 → msToDur d ≤ timeout - e1 →
      timeout - e2 ≤ 0 →
      tryAcquireLoop (⟨some d, e1, e2⟩ :: rs) timeout =
        (some false, [msToDur d])) ∧
    (0 ≤ timeout → 0 < timeout - e1 → msToDur d ≤ timeout - e1 →
      0 < timeout - e2 →
      tryAcquireLoop (⟨some d, e1, e2⟩ :: rs) timeout =
        ((tryAcquireLoop rs (timeout - e2)).1,
         msToDur d :: (tryAcquireLoop rs (timeout - e2)).2)) := by
  refine ⟨?_, ?_, ?_, ?_, ?_, ?_, ?_⟩
  · simp [tryAcquireLoop]
  · intro h
    simp [tryAcquireLoop, h]
  · intro h
    exact tryAcquireLoop_neg rs timeout h
  · intro h h1
    have hn : ¬ timeout < 0 := by omega
    simp [tryAcquireLoop, hn, h1]
  · intro h h1 h2
    have hn : ¬ timeout < 0 := by omega
    have h3 : ¬ timeout - e1 ≤ 0 := by omega
    simp [tryAcquireLoop, hn, h3, h2]
  · intro h h1 h2 h3
    have hn : ¬ timeout < 0 := by omega
    have h4 : ¬ timeout - e1 ≤ 0 := by omega
    have h5 : ¬ timeout - e1 < msToDur d := by omega
    simp [tryAcquireLoop, hn, h4, h5, h3]
  · intro h h1 h2 h3
    have hn : ¬ timeout < 0 := by omega
    have h4 : ¬ timeout - e1 ≤ 0 := by omega
    have h5 : ¬ timeout - e1 < msToDur d := by omega
    have h6 : ¬ timeout - e2 ≤ 0 := by omega
    simp [tryAcquireLoop, hn, h4, h5, h6]

/-- Witness for C6: the infinite-timeout recursion equation on a
concrete round. -/
theorem tryAcquireWithTimeout_witness :
    tryAcquireLoop [⟨some 5, 1, 2⟩] (-1) =
      ((tryAcquireLoop [] (-1)).1,
       msToDur 5 :: (tryAcquireLoop [] (-1)).2) :=
  (tryAcquireWithTimeout_cases [] (-1) 1 2 5).2.1 (by decide)

theorem trySetRate_configured (s : RLState) (r0 i0 t0 : Int)
    (hc : s.config = ⟨some r0, some i0, some t0⟩) (r i t : Int) :
    TrySetRate r i t s = (false, s) := by
  unfold TrySetRate trySetRateScript
  rw [hc]
  simp [hsetnx]
  rw [← hc]

theorem runTrySetRate_configured (as : List (Int × Int × Int)) (s : RLState)
    (r0 i0 t0 : Int) (hc : s.config = ⟨some r0, some i0, some t0⟩) :
    runTrySetRate s as = (as.map (fun _ => false), s) := by
  induction as with
  | nil => rfl
  | cons a rest ih =>
    obtain ⟨r, i, t⟩ := a
    simp only [runTrySetRate]
    rw [trySetRate_configured s r0 i0 t0 hc r i t]
    simp [ih]

/-- C7: from the unconfigured store, the first TrySetRate returns true
and writes all three config fields; every later TrySetRate, with any
arguments, returns false and leaves the config unchanged, so GetConfig
still reports the first call's rate, interval and type. -/
theorem trySetRate_round_trip (r i t : Int) (as : List (Int × Int × Int)) :
    (runTrySetRate rlInit ((r, i, t) :: as)).1 =
      true :: as.map (fun _ => false) ∧
    (runTrySetRate rlInit ((r, i, t) :: as)).2.config =
      ⟨some r, some i, some t⟩ ∧
    GetConfig (runTrySetRate rlInit ((r, i, t) :: as)).2 = some (r, i, t) := by
  have hfirst : TrySetRate r i t rlInit =
      (true, { rlInit with config := ⟨some r, some i, some t⟩ }) := by
    simp [TrySetRate, trySetRateScript, rlInit, hsetnx]
  have hrest := runTrySetRate_configured as
    { rlInit with config := ⟨some r, some i, some t⟩ } r i t rfl
  simp only [runTrySetRate]
  rw [hfirst]
  simp only
  rw [hrest]
  refine ⟨rfl, rfl, ?_⟩
  simp [GetConfig, hashLen]

/-- C8 (counterexample): with TrySetRate(per-client, rate 2) followed by
an acquire of 2 permits at time 0, running SetRate(per-client, rate 1)
leaves the per-client (selected) value key at 0 and the per-client
permits member in place: outstanding per-client state survives the
reset, so SetRate does not delete the keys the per-client limiter
uses. -/
theorem setRate_keeps_client_state :
    selValue (runRL [RLOp.trySet 2 10 1, RLOp.acquire 2 0 7,
      RLOp.setRate 1 10 1]) = some 0 ∧
    selPermits (runRL [RLOp.trySet 2 10 1, RLOp.acquire 2 0 7,
      RLOp.setRate 1 10 1]) = [⟨7, 2, 0⟩] := by
  constructor
  · decide
  · decide

/-- C8 (amended): SetRate unconditionally overwrites the three config
fields and deletes the cluster-wide value and permits keys, but leaves
the per-client value and permits keys untouched, so in per-client mode
previously outstanding state survives. -/
theorem setRate_resets_overall (s : RLState) (r i t : Int) :
    (setRateScript r i t s).config = ⟨some r, some i, some t⟩ ∧
    (setRateScript r i t s).ovValue = none ∧
    (setRateScript r i t s).ovPermits = [] ∧
    (setRateScript r i t s).clValue = s.clValue ∧
    (setRateScript r i t s).clPermits = s.clPermits :=
  ⟨rfl, rfl, rfl, rfl, rfl⟩

theorem availableOnPair_some (rate interval now x : Int) (ps : List PEntry)
    (hnn : ∀ e ∈ ps, 0 ≤ e.permits) :
    availableOnPair rate interval now (some x) ps =
      (x + sweepReleased now interval ps,
       some (x + sweepReleased now interval ps),
       postSweep now interval ps) := by
  simp only [availableOnPair, postSweep]
  by_cases h0 : 0 < sweepReleased now interval ps
  · rw [if_pos h0, if_pos h0]
  · have h1 : sweepReleased now interval ps = 0 :=
      le_antisymm (not_lt.mp h0) (sweepReleased_nonneg now interval ps hnn)
    rw [if_neg h0, if_neg h0, h1]
    simp

theorem selValue_update_cl (s : RLState) (v2 : Option Int)
    (ps2 : List PEntry) :
    selValue { s with clValue := v2, clPermits := ps2 } =
      (if s.config.rtype = some 1 then v2 else s.ovValue) := rfl

theorem selValue_update_ov (s : RLState) (v2 : Option Int)
    (ps2 : List PEntry) :
    selValue { s with ovValue := v2, ovPermits := ps2 } =
      (if s.config.rtype = some 1 then s.clValue else v2) := rfl

theorem selPermits_update_cl (s : RLState) (v2 : Option Int)
    (ps2 : List PEntry) :
    selPermits { s with clValue := v2, clPermits := ps2 } =
      (if s.config.rtype = some 1 then ps2 else s.ovPermits) := rfl

theorem selPermits_update_ov (s : RLState) (v2 : Option Int)
    (ps2 : List PEntry) :
    selPermits { s with ovValue := v2, ovPermits := ps2 } =
      (if s.config.rtype = some 1 then s.clPermits else ps2) := rfl

/-- C10: with an initialised config, when the selected value key is
absent the available-permits script sets it to the rate and returns the
rate, touching no permits set (no sweep on the cold path); when the
value key exists it sweeps the expired members and returns the stored
value plus their released counts, with no cap at the rate. -/
theorem availablePermits_cases (s : RLState) (now rate interval t : Int)
    (hc : s.config = ⟨some rate, some interval, some t⟩) :
    (selValue s = none →
      (availablePermitsScript now s).1 = Except.ok rate ∧
      selValue (availablePermitsScript now s).2 = some rate ∧
      (availablePermitsScript now s).2.ovPermits = s.ovPermits ∧
      (availablePermitsScript now s).2.clPermits = s.clPermits) ∧
    (∀ v, selValue s = some v → (∀ e ∈ selPermits s, 0 ≤ e.permits) →
      (availablePermitsScript now s).1 =
        Except.ok (v + sweepReleased now interval (selPermits s)) ∧
      selValue (availablePermitsScript now s).2 =
        some (v + sweepReleased now interval (selPermits s)) ∧
      selPermits (availablePermitsScript now s).2 =
        postSweep now interval (selPermits s)) := by
  by_cases ht : t = 1
  · have hrt : s.config.rtype = some 1 := by rw [hc, ht]
    have hsv : selValue s = s.clValue := by
      unfold selValue
      rw [if_pos hrt]
    have hsp : selPermits s = s.clPermits := by
      unfold selPermits
      rw [if_pos hrt]
    constructor
    · intro hv
      rw [hsv] at hv
      have hbody : availableOnPair rate interval now s.clValue s.clPermits =
          (rate, some rate, s.clPermits) := by
        rw [hv]
        rfl
      have hstate : availablePermitsScript now s =
          (Except.ok rate,
           { s with clValue := some rate, clPermits := s.clPermits }) := by
        simp [availablePermitsScript, hc, ht, hbody]
      rw [hstate]
      refine ⟨rfl, ?_, rfl, rfl⟩
      rw [selValue_update_cl, if_pos hrt]
    · intro v hv hnn
      rw [hsv] at hv
      rw [hsp] at hnn ⊢
      have hbody : availableOnPair rate interval now s.clValue s.clPermits =
          (v + sweepReleased now interval s.clPermits,
           some (v + sweepReleased now interval s.clPermits),
           postSweep now interval s.clPermits) := by
        rw [hv]
        exact availableOnPair_some rate interval now v s.clPermits hnn
      have hstate : availablePermitsScript now s =
          (Except.ok (v + sweepReleased now interval s.clPermits),
           { s with clValue := some (v + sweepReleased now interval s.clPermits),
                    clPermits := postSweep now interval s.clPermits }) := by
        simp [availablePermitsScript, hc, ht, hbody]
      rw [hstate]
      refine ⟨rfl, ?_, ?_⟩
      · rw [selValue_update_cl, if_pos hrt]
      · rw [selPermits_update_cl, if_pos hrt]
  · have hrt : ¬ s.config.rtype = some 1 := by
      rw [hc]
      simp [ht]
    have hsv : selValue s = s.ovValue := by
      unfold selValue
      rw [if_neg hrt]
    have hsp : selPermits s = s.ovPermits := by
      unfold selPermits
      rw [if_neg hrt]
    constructor
    · intro hv
      rw [hsv] at hv
      have hbody : availableOnPair rate interval now s.ovValue s.ovPermits =
          (rate, some rate, s.ovPermits) := by
        rw [hv]
        rfl
      have hstate : availablePermitsScript now s =
          (Except.ok rate,
           { s with ovValue := some rate, ovPermits := s.ovPermits }) := by
        simp [availablePermitsScript, hc, ht, hbody]
      rw [hstate]
      refine ⟨rfl, ?_, rfl, rfl⟩
      rw [selValue_update_ov, if_neg hrt]
    · intro v hv hnn
      rw [hsv] at hv
      rw [hsp] at hnn ⊢
      have hbody : availableOnPair rate interval now s.ovValue s.ovPermits =
          (v + sweepReleased now interval s.ovPermits,
           some (v + sweepReleased now interval s.ovPermits),
           postSweep now interval s.ovPermits) := by
        rw [hv]
        exact availableOnPair_some rate interval now v s.ovPermits hnn
      have hstate : availablePermitsScript now s =
          (Except.ok (v + sweepReleased now interval s.ovPermits),
           { s with ovValue := some (v + sweepReleased now interval s.ovPermits),
                    ovPermits := postSweep now interval s.ovPermits }) := by
        simp [availablePermitsScript, hc, ht, hbody]
      rw [hstate]
      refine ⟨rfl, ?_, ?_⟩
      · rw [selValue_update_ov, if_neg hrt]
      · rw [selPermits_update_ov, if_neg hrt]

/-- Witness for C10: the cold path at a time when a member is already
expired (no sweep happens), and the warm path where the uncapped refill
returns 4 against a configured rate of 2. -/
theorem availablePermits_cases_witness :
    ((availablePermitsScript 100
        (⟨⟨some 5, some 10, some 0⟩, none, none, none, [⟨3, 2, 0⟩], [],
          none, none, none, none⟩ : RLState)).1 = Except.ok 5 ∧
     selValue (availablePermitsScript 100
        (⟨⟨some 5, some 10, some 0⟩, none, none, none, [⟨3, 2, 0⟩], [],
          none, none, none, none⟩ : RLState)).2 = some 5 ∧
     (availablePermitsScript 100
        (⟨⟨some 5, some 10, some 0⟩, none, none, none, [⟨3, 2, 0⟩], [],
          none, none, none, none⟩ : RLState)).2.ovPermits =
       (⟨⟨some 5, some 10, some 0⟩, none, none, none, [⟨3, 2, 0⟩], [],
          none, none, none, none⟩ : RLState).ovPermits ∧
     (availablePermitsScript 100
        (⟨⟨some 5, some 10, some 0⟩, none, none, none, [⟨3, 2, 0⟩], [],
          none, none, none, none⟩ : RLState)).2.clPermits =
       (⟨⟨some 5, some 10, some 0⟩, none, none, none, [⟨3, 2, 0⟩], [],
          none, none, none, none⟩ : RLState).clPermits) ∧
    ((availablePermitsScript 15
        (⟨⟨some 2, some 10, some 0⟩, none, some 2, none, [⟨7, 2, 0⟩], [],
          none, none, none, none⟩ : RLState)).1 =
       Except.ok (2 + sweepReleased 15 10 (selPermits
        (⟨⟨some 2, some 10, some 0⟩, none, some 2, none, [⟨7, 2, 0⟩], [],
          none, none, none, none⟩ : RLState))) ∧
     selValue (availablePermitsScript 15
        (⟨⟨some 2, some 10, some 0⟩, none, some 2, none, [⟨7, 2, 0⟩], [],
          none, none, none, none⟩ : RLState)).2 =
       some (2 + sweepReleased 15 10 (selPermits
        (⟨⟨some 2, some 10, some 0⟩, none, some 2, none, [⟨7, 2, 0⟩], [],
          none, none, none, none⟩ : RLState))) ∧
     selPermits (availablePermitsScript 15
        (⟨⟨some 2, some 10, some 0⟩, none, some 2, none, [⟨7, 2, 0⟩], [],
          none, none, none, none⟩ : RLState)).2 =
       postSweep 15 10 (selPermits
        (⟨⟨some 2, some 10, some 0⟩, none, some 2, none, [⟨7, 2, 0⟩], [],
          none, none, none, none⟩ : RLState))) :=
  ⟨(availablePermits_cases
      ⟨⟨some 5, some 10, some 0⟩, none, none, none, [⟨3, 2, 0⟩], [],
        none, none, none, none⟩ 100 5 10 0 rfl).1 (by decide),
   (availablePermits_cases
      ⟨⟨some 2, some 10, some 0⟩, none, some 2, none, [⟨7, 2, 0⟩], [],
        none, none, none, none⟩ 15 2 10 0 rfl).2 2 (by decide) (by decide)⟩
